import Mathlib

/-!
Verification of the schema-cleaning and validation pipeline of the
Summarizer repository (src/main.py, src/counter.py).

The JSON values manipulated by the script are modelled by a mutual
inductive type: Python dicts become insertion-ordered association
lists (`JObj`), Python lists become `JArr`, and scalars are kept as
constructors.  A Python function that may raise an exception is
embedded as a function into `Option` (`none` models a raised
exception that the function itself does not catch).
-/

mutual

/-- A JSON value as handled by `clean_schema` in src/main.py. -/
inductive JVal : Type where
  | jnull : JVal
  | jbool : Bool → JVal
  | jnum : Int → JVal
  | jstr : String → JVal
  | jarr : JArr → JVal
  | jobj : JObj → JVal

/-- A Python list of JSON values. -/
inductive JArr : Type where
  | nil : JArr
  | cons : JVal → JArr → JArr

/-- A Python dict: insertion-ordered key/value pairs.  Python dicts
never hold a duplicate key; `distinctKeys` below captures that
invariant where a proof needs it. -/
inductive JObj : Type where
  | nil : JObj
  | cons : String → JVal → JObj → JObj

end

deriving instance DecidableEq for JVal, JArr, JObj

/-- Python `d.get(k)` and `k in d` support: first (and in a real
dict, only) binding of key `k`. -/
def JObj.lookup : JObj → String → Option JVal
  | .nil, _ => none
  | .cons k' v rest, k => if k' = k then some v else rest.lookup k

/-- Membership test `k in d` for a Python dict. -/
def JObj.hasKey (o : JObj) (k : String) : Bool :=
  (o.lookup k).isSome

/-- Python dict assignment `d[k] = v`: overwrites in place when the key
exists (keeping its position), appends a new binding otherwise. -/
def JObj.set : JObj → String → JVal → JObj
  | .nil, k, v => .cons k v .nil
  | .cons k' v' rest, k, v =>
      if k' = k then .cons k' v rest else .cons k' v' (rest.set k v)

/-- Concatenation of two association lists. -/
def JObj.append : JObj → JObj → JObj
  | .nil, o => o
  | .cons k v rest, o => .cons k v (rest.append o)

/-- The value found by `lookup` sits inside the object, so it is
`sizeOf`-smaller; this justifies recursing into the `anyOf` value. -/
theorem JObj.lookup_sizeOf : ∀ (o : JObj) (k : String) (v : JVal),
    o.lookup k = some v → sizeOf v < sizeOf o
  | .nil, _, _, h => by simp [JObj.lookup] at h
  | .cons k' v' rest, k, v, h => by
      rw [JObj.lookup] at h
      by_cases hk : k' = k
      · subst hk
        simp at h
        subst h
        simp
        omega
      · rw [if_neg hk] at h
        have := JObj.lookup_sizeOf rest k v h
        simp
        omega

mutual

/-- Embedding of `clean_schema` (src/main.py lines 60-85).
`none` models an uncaught exception: iterating a non-list `anyOf`
value, or calling `.get` on a non-dict union branch, raises in
Python. -/
def cleanSchema : JVal → Option JVal
  | .jobj fields =>
      match h : fields.lookup "anyOf" with
      | some (.jarr items) => (cleanUnion items .nil).map .jobj
      | some _ => none
      | none => (cleanFields fields .nil).map .jobj
  | .jarr elems => (cleanElems elems).map .jarr
  | v => some v
termination_by v => sizeOf v
decreasing_by
  all_goals simp_wf
  all_goals first
    | omega
    | (have hsz := JObj.lookup_sizeOf fields "anyOf" (.jarr items) h
       simp at hsz
       omega)

/-- The `anyOf` loop of `clean_schema` (src/main.py lines 69-76):
a null-typed branch sets `nullable = true`, any other branch has its
fields (minus `title`/`description`) copied into the accumulator. -/
def cleanUnion : JArr → JObj → Option JObj
  | .nil, acc => some acc
  | .cons item rest, acc =>
      match item with
      | .jobj ifields =>
          if ifields.lookup "type" = some (.jstr "null") then
            cleanUnion rest (acc.set "nullable" (.jbool true))
          else
            match copyBranch ifields acc with
            | some acc' => cleanUnion rest acc'
            | none => none
      | _ => none
termination_by items _ => sizeOf items
decreasing_by
  all_goals simp_wf
  all_goals omega

/-- The inner copy loop for a non-null union branch
(src/main.py lines 74-76): drops only `title` and `description`. -/
def copyBranch : JObj → JObj → Option JObj
  | .nil, acc => some acc
  | .cons k v rest, acc =>
      if k = "title" ∨ k = "description" then copyBranch rest acc
      else
        match cleanSchema v with
        | some cv => copyBranch rest (acc.set k cv)
        | none => none
termination_by fields _ => sizeOf fields
decreasing_by
  all_goals simp_wf
  all_goals omega

/-- The non-union copy loop of `clean_schema` (src/main.py lines
78-80): drops `title`, `description`, `$ref` and `$defs`. -/
def cleanFields : JObj → JObj → Option JObj
  | .nil, acc => some acc
  | .cons k v rest, acc =>
      if k = "title" ∨ k = "description" ∨ k = "$ref" ∨ k = "$defs" then
        cleanFields rest acc
      else
        match cleanSchema v with
        | some cv => cleanFields rest (acc.set k cv)
        | none => none
termination_by fields _ => sizeOf fields
decreasing_by
  all_goals simp_wf
  all_goals omega

/-- The list branch of `clean_schema` (src/main.py line 83). -/
def cleanElems : JArr → Option JArr
  | .nil => some .nil
  | .cons v rest =>
      match cleanSchema v, cleanElems rest with
      | some cv, some crest => some (.cons cv crest)
      | _, _ => none
termination_by elems => sizeOf elems
decreasing_by
  all_goals simp_wf
  all_goals omega

end

/-- Pairwise-distinct keys: every real Python dict satisfies this. -/
def JObj.distinctKeys : JObj → Bool
  | .nil => true
  | .cons k _ rest => !(rest.hasKey k) && rest.distinctKeys

mutual

/-- No object anywhere in the tree carries an `anyOf` key. -/
def noAnyOf : JVal → Bool
  | .jobj fields => noAnyOfObj fields
  | .jarr elems => noAnyOfArr elems
  | _ => true

def noAnyOfObj : JObj → Bool
  | .nil => true
  | .cons k v rest => !(k == "anyOf") && noAnyOf v && noAnyOfObj rest

def noAnyOfArr : JArr → Bool
  | .nil => true
  | .cons v rest => noAnyOf v && noAnyOfArr rest

end

mutual

/-- Every object node in the tree has pairwise-distinct keys: the
part of the Python-dict invariant the tree-level proofs need. -/
def distinctAll : JVal → Bool
  | .jobj fields => fields.distinctKeys && distinctAllObj fields
  | .jarr elems => distinctAllArr elems
  | _ => true

def distinctAllObj : JObj → Bool
  | .nil => true
  | .cons _ v rest => distinctAll v && distinctAllObj rest

def distinctAllArr : JArr → Bool
  | .nil => true
  | .cons v rest => distinctAll v && distinctAllArr rest

end

/-- Branch list of a union node acceptable to the `anyOf` loop without
raising and without copying a literal `anyOf` key: every branch is an
object and none has a top-level `anyOf` key. -/
def unionItemsOk : JArr → Bool
  | .nil => true
  | .cons (.jobj ifields) rest => !(ifields.hasKey "anyOf") && unionItemsOk rest
  | .cons _ _ => false

mutual

/-- Trees whose union nodes all carry a list of object branches, none
of which itself has a top-level `anyOf` key. -/
def goodUnions : JVal → Bool
  | .jobj fields =>
      match h : fields.lookup "anyOf" with
      | some (.jarr items) => unionItemsOk items && goodUnionsArr items
      | some _ => false
      | none => goodUnionsObj fields
  | .jarr elems => goodUnionsArr elems
  | _ => true
termination_by v => sizeOf v
decreasing_by
  all_goals simp_wf
  all_goals first
    | omega
    | (have hsz := JObj.lookup_sizeOf fields "anyOf" (.jarr items) h
       simp at hsz
       omega)

def goodUnionsObj : JObj → Bool
  | .nil => true
  | .cons _ v rest => goodUnions v && goodUnionsObj rest
termination_by o => sizeOf o
decreasing_by
  all_goals simp_wf
  all_goals omega

def goodUnionsArr : JArr → Bool
  | .nil => true
  | .cons v rest => goodUnions v && goodUnionsArr rest
termination_by a => sizeOf a
decreasing_by
  all_goals simp_wf
  all_goals omega

end

mutual

/-- Spec-side description of the non-union behaviour of `normalize`:
"s with exactly the excluded metadata keys (`title`, `description`,
`$ref`, `$defs`) removed at every level and nothing else changed". -/
def eraseMeta : JVal → JVal
  | .jobj fields => .jobj (eraseMetaObj fields)
  | .jarr elems => .jarr (eraseMetaArr elems)
  | v => v

def eraseMetaObj : JObj → JObj
  | .nil => .nil
  | .cons k v rest =>
      if k = "title" ∨ k = "description" ∨ k = "$ref" ∨ k = "$defs" then
        eraseMetaObj rest
      else
        .cons k (eraseMeta v) (eraseMetaObj rest)

def eraseMetaArr : JArr → JArr
  | .nil => .nil
  | .cons v rest => .cons (eraseMeta v) (eraseMetaArr rest)

end

/-! ### Extraction, pipeline, filename and validation models -/

/-- Virtual filesystem for the extraction model: `none` means opening
the file raises (missing/unopenable); `some pages` is a readable PDF
whose per-page `extract_text()` results are listed in page order
(`none` for a page that yields no text). -/
def FileSys : Type := String → Option (List (Option String))

/-- Per-page text `page.extract_text() or ""` (src/main.py line 33,
src/counter.py line 8). -/
def pageText (p : Option String) : String := p.getD ""

/-- Concatenation of the per-page texts in page order, as in the
join expression of src/main.py line 33. -/
def concatPages : List (Option String) → String
  | [] => ""
  | p :: rest => pageText p ++ concatPages rest

/-- The `load_file` of src/main.py (lines 19-39): every exception
from opening or reading the file is caught and reported as the empty
string. -/
def main_load_file (fs : FileSys) (path : String) : String :=
  match fs path with
  | none => ""
  | some pages => concatPages pages

/-- The `load_file` of src/counter.py (lines 5-8): no handler, so a
file-open failure propagates as an exception (`Except.error`). -/
def counter_load_file (fs : FileSys) (path : String) : Except String String :=
  match fs path with
  | none => .error "FileNotFoundError"
  | some pages => .ok (concatPages pages)

/-- Outcome of the `__main__` block of src/main.py up to the first
network interaction: `genai.configure` and the generation call are
executed only in the `reachedNetwork` outcome. -/
inductive RunOutcome : Type where
  | exitEmptyInput : RunOutcome
  | exitNoApiKey : RunOutcome
  | reachedNetwork : String → String → RunOutcome
deriving DecidableEq

/-- The prefix of `__main__` (src/main.py lines 95-112): load the PDF
text, exit on empty text, exit on a missing `GEMINI_API_KEY`,
otherwise configure the API client and proceed towards generation. -/
def runMain (fs : FileSys) (env : String → Option String) : RunOutcome :=
  let text := main_load_file fs "meta_10k.pdf"
  if text = "" then .exitEmptyInput
  else
    match env "GEMINI_API_KEY" with
    | none => .exitNoApiKey
    | some key => .reachedNetwork key text

/-- Python `str.replace(old, new)` on character lists, for a
non-empty pattern `p0 :: ptl`: leftmost non-overlapping occurrences
are replaced. -/
def pyReplace (p0 : Char) (ptl new : List Char) : List Char → List Char
  | [] => []
  | c :: rest =>
      if c = p0 ∧ rest.take ptl.length = ptl then
        new ++ pyReplace p0 ptl new (rest.drop ptl.length)
      else
        c :: pyReplace p0 ptl new rest
termination_by l => l.length
decreasing_by
  all_goals simp_wf
  all_goals omega

/-- The sanitisation `company = ar.company_name.replace(" ", "_").replace("/", "_")`
of src/main.py line 191. -/
def sanitizeCompany (name : List Char) : List Char :=
  pyReplace '/' [] ['_'] (pyReplace ' ' [] ['_'] name)

/-- The filename template of src/main.py line 192: the literal
annual_report_, the sanitised company name, an underscore, the fiscal
year, and the .pdf suffix. -/
def annualReportFilename (name : List Char) (year : Nat) : List Char :=
  "annual_report_".toList ++ sanitizeCompany name
    ++ "_".toList ++ (toString year).toList ++ ".pdf".toList

/-- Spec-side reading of §6: each space and each path-separator
character becomes an underscore; every other character (punctuation
included) is unchanged. -/
def specSanitize (name : List Char) : List Char :=
  name.map (fun c => if c = ' ' ∨ c = '/' then '_' else c)

/-- Validation error taxonomy of spec §7. -/
inductive ValidateError : Type where
  | malformedPayload : ValidateError
  | schemaViolation : String → ValidateError
deriving DecidableEq

/-- The required fields of `AnnualReport` (src/main.py lines 43-46):
exactly the fields declared without a default. -/
def requiredFields : List String :=
  ["company_name", "cik", "fiscal_year_end", "filing_date"]

/-- First required field missing from the incoming object. -/
def firstMissing (fields : JObj) : List String → Option String
  | [] => none
  | f :: rest => if fields.hasKey f then firstMissing fields rest else some f

/-- Modelled from the spec: `AnnualReport.model_validate_json`
(src/main.py line 146) delegates to pydantic, third-party code not in
this repository.  Following spec §4.2, the argument is the parse
result of the raw string (`none` when it is not valid JSON, yielding
`MalformedPayload`); a parsed object missing a required field fails
with `SchemaViolation` naming the first such field.  Field-level type
validation, which no claim touches, is not modelled. -/
def validateReport (parsed : Option JVal) : Except ValidateError JObj :=
  match parsed with
  | none => .error .malformedPayload
  | some (.jobj fields) =>
      match firstMissing fields requiredFields with
      | some f => .error (.schemaViolation f)
      | none => .ok fields
  | some _ => .error (.schemaViolation "model_type")

theorem JObj.lookup_set_self : ∀ (o : JObj) (k : String) (v : JVal),
    (o.set k v).lookup k = some v
  | .nil, k, v => by simp [JObj.set, JObj.lookup]
  | .cons k' v' rest, k, v => by
      rw [JObj.set]
      by_cases hk : k' = k
      · simp [hk, JObj.lookup]
      · rw [if_neg hk, JObj.lookup, if_neg hk]
        exact JObj.lookup_set_self rest k v

theorem JObj.lookup_set_ne : ∀ (o : JObj) (k k' : String) (v : JVal),
    k' ≠ k → (o.set k v).lookup k' = o.lookup k'
  | .nil, k, k', v, h => by
      simp [JObj.set, JObj.lookup]
      intro he
      exact absurd he.symm h
  | .cons k'' v' rest, k, k', v, h => by
      rw [JObj.set]
      by_cases hk : k'' = k
      · subst hk
        rw [if_pos rfl, JObj.lookup, JObj.lookup]
        have : ¬ k'' = k' := fun he => h (he.symm)
        rw [if_neg this, if_neg this]
      · rw [if_neg hk, JObj.lookup, JObj.lookup]
        by_cases hk2 : k'' = k'
        · rw [if_pos hk2, if_pos hk2]
        · rw [if_neg hk2, if_neg hk2]
          exact JObj.lookup_set_ne rest k k' v h

theorem JObj.hasKey_set_self (o : JObj) (k : String) (v : JVal) :
    (o.set k v).hasKey k = true := by
  simp [JObj.hasKey, JObj.lookup_set_self]

theorem JObj.hasKey_set_ne (o : JObj) (k k' : String) (v : JVal) (h : k' ≠ k) :
    (o.set k v).hasKey k' = o.hasKey k' := by
  simp [JObj.hasKey, JObj.lookup_set_ne o k k' v h]

/-- Assigning a fresh key to a Python dict appends the binding. -/
theorem JObj.set_fresh : ∀ (o : JObj) (k : String) (v : JVal),
    o.hasKey k = false → o.set k v = o.append (.cons k v .nil)
  | .nil, k, v, _ => by simp [JObj.set, JObj.append]
  | .cons k' v' rest, k, v, h => by
      simp only [JObj.hasKey, JObj.lookup] at h
      by_cases hk : k' = k
      · rw [if_pos hk] at h
        simp at h
      · rw [if_neg hk] at h
        rw [JObj.set, if_neg hk, JObj.append]
        have := JObj.set_fresh rest k v (by simpa [JObj.hasKey] using h)
        rw [this]

theorem JObj.append_nil : ∀ (o : JObj), o.append .nil = o
  | .nil => rfl
  | .cons k v rest => by rw [JObj.append, JObj.append_nil rest]

theorem JObj.append_assoc : ∀ (a b c : JObj),
    (a.append b).append c = a.append (b.append c)
  | .nil, _, _ => rfl
  | .cons k v rest, b, c => by
      rw [JObj.append, JObj.append, JObj.append, JObj.append_assoc rest b c]

theorem noAnyOfObj_set : ∀ (o : JObj) (k : String) (v : JVal),
    k ≠ "anyOf" → noAnyOf v = true → noAnyOfObj o = true →
    noAnyOfObj (o.set k v) = true
  | .nil, k, v, hk, hv, _ => by simp [JObj.set, noAnyOfObj, hk, hv, noAnyOf]
  | .cons k' v' rest, k, v, hk, hv, ho => by
      simp only [noAnyOfObj, Bool.and_eq_true, bne_iff_ne, ne_eq] at ho
      rw [JObj.set]
      by_cases he : k' = k
      · rw [if_pos he]
        simp [noAnyOfObj, ho.1.1, ho.1.2, ho.2, hv]
      · rw [if_neg he]
        simp only [noAnyOfObj, Bool.and_eq_true, bne_iff_ne, ne_eq]
        exact ⟨⟨ho.1.1, ho.1.2⟩, noAnyOfObj_set rest k v hk hv ho.2⟩

theorem cleanSchema_jobj_union (fields : JObj) (items : JArr)
    (h : fields.lookup "anyOf" = some (.jarr items)) :
    cleanSchema (.jobj fields) = (cleanUnion items .nil).map .jobj := by
  rw [cleanSchema]
  split
  · next x heq =>
      rw [h] at heq
      injection heq with heq2
      injection heq2 with heq3
      rw [heq3]
  · next x heq hne =>
      rw [h] at hne
      injection hne with hx
      exact (heq items hx.symm).elim
  · next heq =>
      rw [h] at heq
      cases heq

theorem cleanSchema_jobj_plain (fields : JObj)
    (h : fields.lookup "anyOf" = none) :
    cleanSchema (.jobj fields) = (cleanFields fields .nil).map .jobj := by
  rw [cleanSchema]
  split
  · next x heq => rw [h] at heq; cases heq
  · next x heq hne => rw [h] at hne; cases hne
  · rfl

theorem goodUnions_jobj_union (fields : JObj) (items : JArr)
    (h : fields.lookup "anyOf" = some (.jarr items)) :
    goodUnions (.jobj fields) = (unionItemsOk items && goodUnionsArr items) := by
  rw [goodUnions]
  split
  · next x heq =>
      rw [h] at heq
      injection heq with heq2
      injection heq2 with heq3
      rw [heq3]
  · next x heq hne =>
      rw [h] at hne
      injection hne with hx
      exact (heq items hx.symm).elim
  · next heq =>
      rw [h] at heq
      cases heq

theorem goodUnions_jobj_plain (fields : JObj)
    (h : fields.lookup "anyOf" = none) :
    goodUnions (.jobj fields) = goodUnionsObj fields := by
  rw [goodUnions]
  split
  · next x heq => rw [h] at heq; cases heq
  · next x heq hne => rw [h] at hne; cases hne
  · rfl

theorem JObj.hasKey_cons_false {k key : String} {v : JVal} {rest : JObj}
    (h : (JObj.cons k v rest).hasKey key = false) :
    k ≠ key ∧ rest.hasKey key = false := by
  rw [JObj.hasKey, JObj.lookup] at h
  by_cases hk : k = key
  · rw [if_pos hk] at h
    simp at h
  · rw [if_neg hk] at h
    exact ⟨hk, h⟩

theorem JObj.hasKey_false_lookup {o : JObj} {k : String}
    (h : o.hasKey k = false) : o.lookup k = none := by
  rw [JObj.hasKey] at h
  cases hl : o.lookup k with
  | none => rfl
  | some v => rw [hl] at h; simp at h

theorem goodUnions_jobj_notarr (fields : JObj) (av : JVal)
    (h : fields.lookup "anyOf" = some av)
    (hna : ∀ items, av ≠ .jarr items) :
    goodUnions (.jobj fields) = false := by
  rw [goodUnions]
  split
  · next x heq =>
      rw [h] at heq
      injection heq with h2
      exact (hna x h2).elim
  · rfl
  · next heq =>
      rw [h] at heq
      cases heq

mutual

/-- On a tree whose unions are well-formed, `clean_schema` returns
normally and its output carries no `anyOf` key at any position. -/
theorem cleanSchema_good : ∀ (v : JVal), goodUnions v = true →
    ∃ t, cleanSchema v = some t ∧ noAnyOf t = true
  | .jnull, _ => ⟨.jnull, by simp [cleanSchema], by simp [noAnyOf]⟩
  | .jbool b, _ => ⟨.jbool b, by simp [cleanSchema], by simp [noAnyOf]⟩
  | .jnum n, _ => ⟨.jnum n, by simp [cleanSchema], by simp [noAnyOf]⟩
  | .jstr s, _ => ⟨.jstr s, by simp [cleanSchema], by simp [noAnyOf]⟩
  | .jarr elems, h => by
      rw [goodUnions] at h
      obtain ⟨t, ht, hno⟩ := cleanElems_good elems h
      refine ⟨.jarr t, ?_, ?_⟩
      · rw [cleanSchema, ht]
        rfl
      · rw [noAnyOf]
        exact hno
  | .jobj fields, h => by
      cases hlk : fields.lookup "anyOf" with
      | none =>
          rw [goodUnions_jobj_plain fields hlk] at h
          have hhk : fields.hasKey "anyOf" = false := by
            rw [JObj.hasKey, hlk]
            rfl
          obtain ⟨o, ho, hno⟩ :=
            cleanFields_good fields .nil hhk h (by rw [noAnyOfObj])
          refine ⟨.jobj o, ?_, ?_⟩
          · rw [cleanSchema_jobj_plain fields hlk, ho]
            rfl
          · rw [noAnyOf]
            exact hno
      | some av =>
          cases av with
          | jarr items =>
              rw [goodUnions_jobj_union fields items hlk] at h
              simp only [Bool.and_eq_true] at h
              obtain ⟨o, ho, hno⟩ :=
                cleanUnion_good items .nil h.1 h.2 (by rw [noAnyOfObj])
              refine ⟨.jobj o, ?_, ?_⟩
              · rw [cleanSchema_jobj_union fields items hlk, ho]
                rfl
              · rw [noAnyOf]
                exact hno
          | jnull =>
              rw [goodUnions_jobj_notarr fields _ hlk (fun _ hc => by cases hc)] at h
              exact Bool.noConfusion h
          | jbool b =>
              rw [goodUnions_jobj_notarr fields _ hlk (fun _ hc => by cases hc)] at h
              exact Bool.noConfusion h
          | jnum n =>
              rw [goodUnions_jobj_notarr fields _ hlk (fun _ hc => by cases hc)] at h
              exact Bool.noConfusion h
          | jstr s =>
              rw [goodUnions_jobj_notarr fields _ hlk (fun _ hc => by cases hc)] at h
              exact Bool.noConfusion h
          | jobj o =>
              rw [goodUnions_jobj_notarr fields _ hlk (fun _ hc => by cases hc)] at h
              exact Bool.noConfusion h
termination_by v _ => sizeOf v
decreasing_by
  all_goals simp_wf
  all_goals first
    | omega
    | (have hsz := JObj.lookup_sizeOf fields "anyOf" (.jarr items) hlk
       simp at hsz
       omega)

theorem cleanUnion_good : ∀ (items : JArr) (acc : JObj),
    unionItemsOk items = true → goodUnionsArr items = true →
    noAnyOfObj acc = true →
    ∃ o, cleanUnion items acc = some o ∧ noAnyOfObj o = true
  | .nil, acc, _, _, hacc => ⟨acc, by rw [cleanUnion], hacc⟩
  | .cons (.jobj ifields) rest, acc, hok, hg, hacc => by
      rw [unionItemsOk] at hok
      simp only [Bool.and_eq_true, Bool.not_eq_true'] at hok
      rw [goodUnionsArr] at hg
      simp only [Bool.and_eq_true] at hg
      have hlkn : ifields.lookup "anyOf" = none :=
        JObj.hasKey_false_lookup hok.1
      have hgo : goodUnionsObj ifields = true := by
        have h1 := hg.1
        rwa [goodUnions_jobj_plain ifields hlkn] at h1
      simp only [cleanUnion]
      by_cases hnull : ifields.lookup "type" = some (.jstr "null")
      · rw [if_pos hnull]
        exact cleanUnion_good rest (acc.set "nullable" (.jbool true)) hok.2 hg.2
          (noAnyOfObj_set acc _ _ (by decide) (by simp [noAnyOf]) hacc)
      · rw [if_neg hnull]
        obtain ⟨acc', hcb, hno'⟩ := copyBranch_good ifields acc hok.1 hgo hacc
        rw [hcb]
        exact cleanUnion_good rest acc' hok.2 hg.2 hno'
  | .cons .jnull rest, acc, hok, _, _ => by simp [unionItemsOk] at hok
  | .cons (.jbool b) rest, acc, hok, _, _ => by simp [unionItemsOk] at hok
  | .cons (.jnum n) rest, acc, hok, _, _ => by simp [unionItemsOk] at hok
  | .cons (.jstr s) rest, acc, hok, _, _ => by simp [unionItemsOk] at hok
  | .cons (.jarr a) rest, acc, hok, _, _ => by simp [unionItemsOk] at hok
termination_by items _ _ _ _ => sizeOf items
decreasing_by
  all_goals simp_wf
  all_goals omega

theorem copyBranch_good : ∀ (bf acc : JObj),
    bf.hasKey "anyOf" = false → goodUnionsObj bf = true →
    noAnyOfObj acc = true →
    ∃ o, copyBranch bf acc = some o ∧ noAnyOfObj o = true
  | .nil, acc, _, _, hacc => ⟨acc, by rw [copyBranch], hacc⟩
  | .cons k v rest, acc, hhk, hg, hacc => by
      obtain ⟨hkne, hrest⟩ := JObj.hasKey_cons_false hhk
      rw [goodUnionsObj] at hg
      simp only [Bool.and_eq_true] at hg
      rw [copyBranch]
      by_cases hskip : k = "title" ∨ k = "description"
      · rw [if_pos hskip]
        exact copyBranch_good rest acc hrest hg.2 hacc
      · rw [if_neg hskip]
        obtain ⟨cv, hcv, hcvno⟩ := cleanSchema_good v hg.1
        rw [hcv]
        exact copyBranch_good rest (acc.set k cv) hrest hg.2
          (noAnyOfObj_set acc k cv hkne hcvno hacc)
termination_by bf _ _ _ _ => sizeOf bf
decreasing_by
  all_goals simp_wf
  all_goals omega

theorem cleanFields_good : ∀ (fields acc : JObj),
    fields.hasKey "anyOf" = false → goodUnionsObj fields = true →
    noAnyOfObj acc = true →
    ∃ o, cleanFields fields acc = some o ∧ noAnyOfObj o = true
  | .nil, acc, _, _, hacc => ⟨acc, by rw [cleanFields], hacc⟩
  | .cons k v rest, acc, hhk, hg, hacc => by
      obtain ⟨hkne, hrest⟩ := JObj.hasKey_cons_false hhk
      rw [goodUnionsObj] at hg
      simp only [Bool.and_eq_true] at hg
      rw [cleanFields]
      by_cases hskip : k = "title" ∨ k = "description" ∨ k = "$ref" ∨ k = "$defs"
      · rw [if_pos hskip]
        exact cleanFields_good rest acc hrest hg.2 hacc
      · rw [if_neg hskip]
        obtain ⟨cv, hcv, hcvno⟩ := cleanSchema_good v hg.1
        rw [hcv]
        exact cleanFields_good rest (acc.set k cv) hrest hg.2
          (noAnyOfObj_set acc k cv hkne hcvno hacc)
termination_by fields _ _ _ _ => sizeOf fields
decreasing_by
  all_goals simp_wf
  all_goals omega

theorem cleanElems_good : ∀ (elems : JArr), goodUnionsArr elems = true →
    ∃ t, cleanElems elems = some t ∧ noAnyOfArr t = true
  | .nil, _ => ⟨.nil, by rw [cleanElems], by rw [noAnyOfArr]⟩
  | .cons v rest, h => by
      rw [goodUnionsArr] at h
      simp only [Bool.and_eq_true] at h
      obtain ⟨cv, hcv, hcvno⟩ := cleanSchema_good v h.1
      obtain ⟨crest, hcrest, hcrestno⟩ := cleanElems_good rest h.2
      refine ⟨.cons cv crest, ?_, ?_⟩
      · rw [cleanElems, hcv, hcrest]
      · rw [noAnyOfArr]
        simp [hcvno, hcrestno]
termination_by elems _ => sizeOf elems
decreasing_by
  all_goals simp_wf
  all_goals omega

end

theorem JObj.hasKey_cons (k k' : String) (v : JVal) (rest : JObj) :
    (JObj.cons k v rest).hasKey k' = (k == k' || rest.hasKey k') := by
  rw [JObj.hasKey, JObj.lookup]
  by_cases h : k = k'
  · simp [h]
  · simp [h, JObj.hasKey]

theorem JObj.hasKey_append : ∀ (a b : JObj) (k : String),
    (a.append b).hasKey k = (a.hasKey k || b.hasKey k)
  | .nil, b, k => by
      rw [JObj.append]
      simp [JObj.hasKey, JObj.lookup]
  | .cons k' v rest, b, k => by
      rw [JObj.append, JObj.hasKey_cons, JObj.hasKey_cons,
        JObj.hasKey_append rest b k, Bool.or_assoc]

theorem noAnyOfObj_hasKey : ∀ (o : JObj),
    noAnyOfObj o = true → o.hasKey "anyOf" = false
  | .nil, _ => by simp [JObj.hasKey, JObj.lookup]
  | .cons k v rest, h => by
      rw [noAnyOfObj] at h
      simp only [Bool.and_eq_true, Bool.not_eq_true', beq_eq_false_iff_ne, ne_eq] at h
      rw [JObj.hasKey_cons, noAnyOfObj_hasKey rest h.2]
      simp [h.1.1]

theorem JObj.hasKey_eraseMetaObj : ∀ (o : JObj) (k : String),
    (eraseMetaObj o).hasKey k = true → o.hasKey k = true
  | .nil, k, h => by rw [eraseMetaObj] at h; exact h
  | .cons k' v rest, k, h => by
      rw [eraseMetaObj] at h
      rw [JObj.hasKey_cons]
      by_cases hskip : k' = "title" ∨ k' = "description" ∨ k' = "$ref" ∨ k' = "$defs"
      · rw [if_pos hskip] at h
        rw [JObj.hasKey_eraseMetaObj rest k h]
        simp
      · rw [if_neg hskip, JObj.hasKey_cons] at h
        rcases Bool.or_eq_true_iff.mp h with h1 | h2
        · rw [h1]
          simp
        · rw [JObj.hasKey_eraseMetaObj rest k h2]
          simp

theorem JObj.hasKey_eraseMetaObj_false (o : JObj) (k : String)
    (h : o.hasKey k = false) : (eraseMetaObj o).hasKey k = false := by
  cases h2 : (eraseMetaObj o).hasKey k with
  | false => rfl
  | true => rw [JObj.hasKey_eraseMetaObj o k h2] at h; cases h

theorem distinctKeys_eraseMetaObj : ∀ (o : JObj),
    o.distinctKeys = true → (eraseMetaObj o).distinctKeys = true
  | .nil, _ => by rw [eraseMetaObj]; rfl
  | .cons k v rest, h => by
      rw [JObj.distinctKeys] at h
      simp only [Bool.and_eq_true, Bool.not_eq_true'] at h
      rw [eraseMetaObj]
      by_cases hskip : k = "title" ∨ k = "description" ∨ k = "$ref" ∨ k = "$defs"
      · rw [if_pos hskip]
        exact distinctKeys_eraseMetaObj rest h.2
      · rw [if_neg hskip, JObj.distinctKeys]
        rw [JObj.hasKey_eraseMetaObj_false rest k h.1,
          distinctKeys_eraseMetaObj rest h.2]
        rfl

mutual

theorem noAnyOf_eraseMeta : ∀ (v : JVal),
    noAnyOf v = true → noAnyOf (eraseMeta v) = true
  | .jnull, h => h
  | .jbool _, h => h
  | .jnum _, h => h
  | .jstr _, h => h
  | .jarr elems, h => by
      rw [noAnyOf] at h
      rw [eraseMeta, noAnyOf]
      exact noAnyOfArr_eraseMetaArr elems h
  | .jobj fields, h => by
      rw [noAnyOf] at h
      rw [eraseMeta, noAnyOf]
      exact noAnyOfObj_eraseMetaObj fields h
termination_by v _ => sizeOf v
decreasing_by
  all_goals simp_wf
  all_goals omega

theorem noAnyOfObj_eraseMetaObj : ∀ (o : JObj),
    noAnyOfObj o = true → noAnyOfObj (eraseMetaObj o) = true
  | .nil, h => h
  | .cons k v rest, h => by
      rw [noAnyOfObj] at h
      simp only [Bool.and_eq_true] at h
      rw [eraseMetaObj]
      by_cases hskip : k = "title" ∨ k = "description" ∨ k = "$ref" ∨ k = "$defs"
      · rw [if_pos hskip]
        exact noAnyOfObj_eraseMetaObj rest h.2
      · rw [if_neg hskip, noAnyOfObj]
        rw [h.1.1, noAnyOf_eraseMeta v h.1.2, noAnyOfObj_eraseMetaObj rest h.2]
        rfl
termination_by o _ => sizeOf o
decreasing_by
  all_goals simp_wf
  all_goals omega

theorem noAnyOfArr_eraseMetaArr : ∀ (a : JArr),
    noAnyOfArr a = true → noAnyOfArr (eraseMetaArr a) = true
  | .nil, h => h
  | .cons v rest, h => by
      rw [noAnyOfArr] at h
      simp only [Bool.and_eq_true] at h
      rw [eraseMetaArr, noAnyOfArr]
      rw [noAnyOf_eraseMeta v h.1, noAnyOfArr_eraseMetaArr rest h.2]
      rfl
termination_by a _ => sizeOf a
decreasing_by
  all_goals simp_wf
  all_goals omega

end

mutual

theorem distinctAll_eraseMeta : ∀ (v : JVal),
    distinctAll v = true → distinctAll (eraseMeta v) = true
  | .jnull, h => h
  | .jbool _, h => h
  | .jnum _, h => h
  | .jstr _, h => h
  | .jarr elems, h => by
      rw [distinctAll] at h
      rw [eraseMeta, distinctAll]
      exact distinctAllArr_eraseMetaArr elems h
  | .jobj fields, h => by
      rw [distinctAll] at h
      simp only [Bool.and_eq_true] at h
      rw [eraseMeta, distinctAll]
      rw [distinctKeys_eraseMetaObj fields h.1,
        distinctAllObj_eraseMetaObj fields h.2]
      rfl
termination_by v _ => sizeOf v
decreasing_by
  all_goals simp_wf
  all_goals omega

theorem distinctAllObj_eraseMetaObj : ∀ (o : JObj),
    distinctAllObj o = true → distinctAllObj (eraseMetaObj o) = true
  | .nil, h => h
  | .cons k v rest, h => by
      rw [distinctAllObj] at h
      simp only [Bool.and_eq_true] at h
      rw [eraseMetaObj]
      by_cases hskip : k = "title" ∨ k = "description" ∨ k = "$ref" ∨ k = "$defs"
      · rw [if_pos hskip]
        exact distinctAllObj_eraseMetaObj rest h.2
      · rw [if_neg hskip, distinctAllObj]
        rw [distinctAll_eraseMeta v h.1, distinctAllObj_eraseMetaObj rest h.2]
        rfl
termination_by o _ => sizeOf o
decreasing_by
  all_goals simp_wf
  all_goals omega

theorem distinctAllArr_eraseMetaArr : ∀ (a : JArr),
    distinctAllArr a = true → distinctAllArr (eraseMetaArr a) = true
  | .nil, h => h
  | .cons v rest, h => by
      rw [distinctAllArr] at h
      simp only [Bool.and_eq_true] at h
      rw [eraseMetaArr, distinctAllArr]
      rw [distinctAll_eraseMeta v h.1, distinctAllArr_eraseMetaArr rest h.2]
      rfl
termination_by a _ => sizeOf a
decreasing_by
  all_goals simp_wf
  all_goals omega

end

mutual

theorem eraseMeta_idem : ∀ (v : JVal), eraseMeta (eraseMeta v) = eraseMeta v
  | .jnull => rfl
  | .jbool _ => rfl
  | .jnum _ => rfl
  | .jstr _ => rfl
  | .jarr elems => by rw [eraseMeta, eraseMeta, eraseMetaArr_idem elems]
  | .jobj fields => by rw [eraseMeta, eraseMeta, eraseMetaObj_idem fields]
termination_by v => sizeOf v
decreasing_by
  all_goals simp_wf
  all_goals omega

theorem eraseMetaObj_idem : ∀ (o : JObj), eraseMetaObj (eraseMetaObj o) = eraseMetaObj o
  | .nil => rfl
  | .cons k v rest => by
      rw [eraseMetaObj]
      by_cases hskip : k = "title" ∨ k = "description" ∨ k = "$ref" ∨ k = "$defs"
      · rw [if_pos hskip]
        exact eraseMetaObj_idem rest
      · rw [if_neg hskip, eraseMetaObj, if_neg hskip,
          eraseMeta_idem v, eraseMetaObj_idem rest]
termination_by o => sizeOf o
decreasing_by
  all_goals simp_wf
  all_goals omega

theorem eraseMetaArr_idem : ∀ (a : JArr), eraseMetaArr (eraseMetaArr a) = eraseMetaArr a
  | .nil => rfl
  | .cons v rest => by
      rw [eraseMetaArr, eraseMetaArr, eraseMeta_idem v, eraseMetaArr_idem rest]
termination_by a => sizeOf a
decreasing_by
  all_goals simp_wf
  all_goals omega

end

mutual

/-- On an `anyOf`-free tree with Python-dict keys, `clean_schema`
returns the tree with exactly the four excluded metadata keys removed
at every level. -/
theorem cleanSchema_erase : ∀ (v : JVal),
    noAnyOf v = true → distinctAll v = true →
    cleanSchema v = some (eraseMeta v)
  | .jnull, _, _ => by simp [cleanSchema, eraseMeta]
  | .jbool _, _, _ => by simp [cleanSchema, eraseMeta]
  | .jnum _, _, _ => by simp [cleanSchema, eraseMeta]
  | .jstr _, _, _ => by simp [cleanSchema, eraseMeta]
  | .jarr elems, h, hd => by
      rw [noAnyOf] at h
      rw [distinctAll] at hd
      rw [cleanSchema, cleanElems_erase elems h hd, eraseMeta]
      rfl
  | .jobj fields, h, hd => by
      rw [noAnyOf] at h
      rw [distinctAll] at hd
      simp only [Bool.and_eq_true] at hd
      have hlkn : fields.lookup "anyOf" = none :=
        JObj.hasKey_false_lookup (noAnyOfObj_hasKey fields h)
      rw [cleanSchema_jobj_plain fields hlkn]
      rw [cleanFields_erase fields .nil h hd.1 hd.2
        (fun k _ => by simp [JObj.hasKey, JObj.lookup])]
      rw [eraseMeta]
      rfl
termination_by v _ _ => sizeOf v
decreasing_by
  all_goals simp_wf
  all_goals omega

theorem cleanFields_erase : ∀ (fields acc : JObj),
    noAnyOfObj fields = true → fields.distinctKeys = true →
    distinctAllObj fields = true →
    (∀ k, fields.hasKey k = true → acc.hasKey k = false) →
    cleanFields fields acc = some (acc.append (eraseMetaObj fields))
  | .nil, acc, _, _, _, _ => by
      rw [cleanFields, eraseMetaObj, JObj.append_nil]
  | .cons k v rest, acc, hno, hdk, hda, hfresh => by
      rw [noAnyOfObj] at hno
      simp only [Bool.and_eq_true, Bool.not_eq_true', beq_eq_false_iff_ne, ne_eq] at hno
      rw [JObj.distinctKeys] at hdk
      simp only [Bool.and_eq_true, Bool.not_eq_true'] at hdk
      rw [distinctAllObj] at hda
      simp only [Bool.and_eq_true] at hda
      have hfresh_rest : ∀ k', rest.hasKey k' = true → acc.hasKey k' = false := by
        intro k' hk'
        refine hfresh k' ?_
        rw [JObj.hasKey_cons, hk']
        simp
      rw [cleanFields, eraseMetaObj]
      by_cases hskip : k = "title" ∨ k = "description" ∨ k = "$ref" ∨ k = "$defs"
      · rw [if_pos hskip, if_pos hskip]
        exact cleanFields_erase rest acc hno.2 hdk.2 hda.2 hfresh_rest
      · rw [if_neg hskip, if_neg hskip]
        rw [cleanSchema_erase v hno.1.2 hda.1]
        show cleanFields rest (acc.set k (eraseMeta v)) =
          some (acc.append (.cons k (eraseMeta v) (eraseMetaObj rest)))
        have hkfresh : acc.hasKey k = false := by
          refine hfresh k ?_
          rw [JObj.hasKey_cons]
          simp
        rw [JObj.set_fresh acc k _ hkfresh]
        have hfresh2 : ∀ k', rest.hasKey k' = true →
            (acc.append (.cons k (eraseMeta v) .nil)).hasKey k' = false := by
          intro k' hk'
          rw [JObj.hasKey_append, hfresh_rest k' hk', JObj.hasKey_cons]
          have hkne : (k == k') = false := by
            simp only [beq_eq_false_iff_ne, ne_eq]
            intro he
            rw [he] at hdk
            rw [hk'] at hdk
            exact Bool.noConfusion hdk.1
          rw [hkne]
          simp [JObj.hasKey, JObj.lookup]
        rw [cleanFields_erase rest (acc.append (.cons k (eraseMeta v) .nil))
          hno.2 hdk.2 hda.2 hfresh2]
        rw [JObj.append_assoc]
        rfl
termination_by fields _ _ _ _ _ => sizeOf fields
decreasing_by
  all_goals simp_wf
  all_goals omega

theorem cleanElems_erase : ∀ (a : JArr),
    noAnyOfArr a = true → distinctAllArr a = true →
    cleanElems a = some (eraseMetaArr a)
  | .nil, _, _ => by rw [cleanElems, eraseMetaArr]
  | .cons v rest, h, hd => by
      rw [noAnyOfArr] at h
      simp only [Bool.and_eq_true] at h
      rw [distinctAllArr] at hd
      simp only [Bool.and_eq_true] at hd
      rw [cleanElems, cleanSchema_erase v h.1 hd.1,
        cleanElems_erase rest h.2 hd.2, eraseMetaArr]
termination_by a _ _ => sizeOf a
decreasing_by
  all_goals simp_wf
  all_goals omega

end

theorem JObj.hasKey_false_of_lookup_none {o : JObj} {k : String}
    (h : o.lookup k = none) : o.hasKey k = false := by
  rw [JObj.hasKey, h]
  rfl

/-- What the `anyOf` copy loop writes, read back through `lookup`:
keys other than `title`/`description` hold the branch value passed
through `clean_schema`; everything else is what the accumulator held. -/
theorem copyBranch_lookup : ∀ (bf acc o : JObj) (k : String),
    bf.distinctKeys = true →
    copyBranch bf acc = some o →
    o.lookup k =
      if (k ≠ "title" ∧ k ≠ "description") ∧ bf.hasKey k = true
      then (bf.lookup k).bind cleanSchema
      else acc.lookup k
  | .nil, acc, o, k, _, hcb => by
      rw [copyBranch] at hcb
      injection hcb with hcb
      subst hcb
      rw [if_neg]
      intro hc
      rw [JObj.hasKey] at hc
      simp [JObj.lookup] at hc
  | .cons k' v' rest, acc, o, k, hdk, hcb => by
      rw [JObj.distinctKeys] at hdk
      simp only [Bool.and_eq_true, Bool.not_eq_true'] at hdk
      rw [copyBranch] at hcb
      by_cases hskip : k' = "title" ∨ k' = "description"
      · rw [if_pos hskip] at hcb
        rw [copyBranch_lookup rest acc o k hdk.2 hcb]
        by_cases hk : k' = k
        · subst hk
          have h1 : ¬ ((k' ≠ "title" ∧ k' ≠ "description") ∧ rest.hasKey k' = true) := by
            rintro ⟨⟨h1, h2⟩, _⟩
            rcases hskip with h | h
            · exact h1 h
            · exact h2 h
          have h2 : ¬ ((k' ≠ "title" ∧ k' ≠ "description") ∧
              (JObj.cons k' v' rest).hasKey k' = true) := by
            rintro ⟨⟨h1, h2⟩, _⟩
            rcases hskip with h | h
            · exact h1 h
            · exact h2 h
          rw [if_neg h1, if_neg h2]
        · have hlk : (JObj.cons k' v' rest).lookup k = rest.lookup k := by
            rw [JObj.lookup, if_neg hk]
          have hhk : (JObj.cons k' v' rest).hasKey k = rest.hasKey k := by
            rw [JObj.hasKey, hlk, JObj.hasKey]
          rw [hlk, hhk]
      · rw [if_neg hskip] at hcb
        cases hcv : cleanSchema v' with
        | none => rw [hcv] at hcb; cases hcb
        | some cv =>
            rw [hcv] at hcb
            have hcb2 : copyBranch rest (acc.set k' cv) = some o := hcb
            rw [copyBranch_lookup rest (acc.set k' cv) o k hdk.2 hcb2]
            by_cases hk : k' = k
            · subst hk
              have h1 : ¬ ((k' ≠ "title" ∧ k' ≠ "description") ∧ rest.hasKey k' = true) := by
                rintro ⟨_, hck⟩
                rw [hdk.1] at hck
                cases hck
              rw [if_neg h1, JObj.lookup_set_self]
              have h2 : ((k' ≠ "title" ∧ k' ≠ "description") ∧
                  (JObj.cons k' v' rest).hasKey k' = true) := by
                constructor
                · constructor
                  · intro hc
                    exact hskip (Or.inl hc)
                  · intro hc
                    exact hskip (Or.inr hc)
                · rw [JObj.hasKey_cons]
                  simp
              rw [if_pos h2]
              have hlk : (JObj.cons k' v' rest).lookup k' = some v' := by
                rw [JObj.lookup, if_pos rfl]
              rw [hlk]
              show some cv = cleanSchema v'
              exact hcv.symm
            · rw [JObj.lookup_set_ne acc k' k cv (fun he => hk he.symm)]
              have hlk : (JObj.cons k' v' rest).lookup k = rest.lookup k := by
                rw [JObj.lookup, if_neg hk]
              have hhk : (JObj.cons k' v' rest).hasKey k = rest.hasKey k := by
                rw [JObj.hasKey, hlk, JObj.hasKey]
              rw [hlk, hhk]

theorem cleanUnion_cons_null (nf : JObj) (rest : JArr) (acc : JObj)
    (h : nf.lookup "type" = some (.jstr "null")) :
    cleanUnion (.cons (.jobj nf) rest) acc
      = cleanUnion rest (acc.set "nullable" (.jbool true)) := by
  rw [cleanUnion]
  show (if nf.lookup "type" = some (.jstr "null") then _ else _) = _
  rw [if_pos h]

theorem cleanUnion_cons_real (bf : JObj) (rest : JArr) (acc acc' : JObj)
    (h : ¬ (bf.lookup "type" = some (.jstr "null")))
    (hcb : copyBranch bf acc = some acc') :
    cleanUnion (.cons (.jobj bf) rest) acc = cleanUnion rest acc' := by
  rw [cleanUnion]
  show (if bf.lookup "type" = some (.jstr "null") then _ else _) = _
  rw [if_neg h, hcb]

/-- C1 (amended).  Part 1: at a union of exactly one real-type branch
plus one null-typed branch, `clean_schema` emits the branch's own
definition (keys other than `title`/`description`, values recursively
cleaned) with `nullable = true` set.  Part 2: on any tree whose union
branch lists consist of objects none of which itself carries a
top-level `anyOf` key, the output contains no `anyOf` key anywhere. -/
theorem claim_C1 :
    (∀ (fields bf nf : JObj) (ty : String),
      fields.lookup "anyOf" =
        some (.jarr (.cons (.jobj bf) (.cons (.jobj nf) .nil))) →
      bf.lookup "type" = some (.jstr ty) → ty ≠ "null" →
      nf.lookup "type" = some (.jstr "null") →
      bf.distinctKeys = true →
      bf.hasKey "anyOf" = false → goodUnionsObj bf = true →
      ∃ o, cleanSchema (.jobj fields) = some (.jobj o) ∧
        o.lookup "nullable" = some (.jbool true) ∧
        o.lookup "title" = none ∧
        o.lookup "description" = none ∧
        (∀ k, k ≠ "title" → k ≠ "description" → k ≠ "nullable" →
          o.lookup k = (bf.lookup k).bind cleanSchema)) ∧
    (∀ s, goodUnions s = true →
      ∃ t, cleanSchema s = some t ∧ noAnyOf t = true) := by
  constructor
  · intro fields bf nf ty hanyof hty htynull hnull hdk hbfno hbfgood
    obtain ⟨acc1, hcb, _⟩ :=
      copyBranch_good bf .nil hbfno hbfgood (by rw [noAnyOfObj])
    have hnotnull : ¬ (bf.lookup "type" = some (.jstr "null")) := by
      rw [hty]
      intro hc
      injection hc with hc2
      injection hc2 with hc3
      exact htynull hc3
    have hcu : cleanUnion (.cons (.jobj bf) (.cons (.jobj nf) .nil)) .nil
        = some (acc1.set "nullable" (.jbool true)) := by
      rw [cleanUnion_cons_real bf _ .nil acc1 hnotnull hcb,
        cleanUnion_cons_null nf .nil acc1 hnull, cleanUnion]
    refine ⟨acc1.set "nullable" (.jbool true), ?_, ?_, ?_, ?_, ?_⟩
    · rw [cleanSchema_jobj_union fields _ hanyof, hcu]
      rfl
    · exact JObj.lookup_set_self acc1 "nullable" (.jbool true)
    · rw [JObj.lookup_set_ne acc1 "nullable" "title" (.jbool true) (by decide)]
      rw [copyBranch_lookup bf .nil acc1 "title" hdk hcb]
      rw [if_neg (by rintro ⟨⟨hc, _⟩, _⟩; exact hc rfl)]
      rw [JObj.lookup]
    · rw [JObj.lookup_set_ne acc1 "nullable" "description" (.jbool true) (by decide)]
      rw [copyBranch_lookup bf .nil acc1 "description" hdk hcb]
      rw [if_neg (by rintro ⟨⟨_, hc⟩, _⟩; exact hc rfl)]
      rw [JObj.lookup]
    · intro k hkt hkd hkn
      rw [JObj.lookup_set_ne acc1 "nullable" k (.jbool true) hkn]
      rw [copyBranch_lookup bf .nil acc1 k hdk hcb]
      by_cases hbk : bf.hasKey k = true
      · rw [if_pos ⟨⟨hkt, hkd⟩, hbk⟩]
      · rw [if_neg (by rintro ⟨_, hc⟩; exact hbk hc)]
        have hlkn : bf.lookup k = none := by
          rw [JObj.hasKey] at hbk
          cases hl : bf.lookup k with
          | none => rfl
          | some v => rw [hl] at hbk; simp at hbk
        rw [hlkn, JObj.lookup]
        rfl
  · intro s hgood
    exact cleanSchema_good s hgood

/-- Witness for C1: the union
`{"anyOf": [{"type": "string", "x": 1}, {"type": "null"}]}` collapses
to `{"type": "string", "x": 1, "nullable": true}` read through
`lookup`, and a well-formed tree cleans to an `anyOf`-free output. -/
theorem claim_C1_witness :
    (∃ o, cleanSchema (.jobj (.cons "anyOf" (.jarr (.cons
        (.jobj (.cons "type" (.jstr "string") (.cons "x" (.jnum 1) .nil)))
        (.cons (.jobj (.cons "type" (.jstr "null") .nil)) .nil))) .nil))
      = some (.jobj o) ∧
      o.lookup "nullable" = some (.jbool true) ∧
      o.lookup "title" = none ∧
      o.lookup "description" = none ∧
      (∀ k, k ≠ "title" → k ≠ "description" → k ≠ "nullable" →
        o.lookup k = ((JObj.cons "type" (.jstr "string")
          (.cons "x" (.jnum 1) .nil)).lookup k).bind cleanSchema)) ∧
    (∃ t, cleanSchema (.jobj (.cons "type" (.jstr "object") .nil)) = some t ∧
      noAnyOf t = true) := by
  constructor
  · exact claim_C1.1
      (.cons "anyOf" (.jarr (.cons
        (.jobj (.cons "type" (.jstr "string") (.cons "x" (.jnum 1) .nil)))
        (.cons (.jobj (.cons "type" (.jstr "null") .nil)) .nil))) .nil)
      (.cons "type" (.jstr "string") (.cons "x" (.jnum 1) .nil))
      (.cons "type" (.jstr "null") .nil) "string"
      (by simp [JObj.lookup]) (by simp [JObj.lookup]) (by decide)
      (by simp [JObj.lookup]) (by decide) (by decide)
      (by simp [goodUnionsObj, goodUnions, goodUnionsArr, JObj.lookup])
  · exact claim_C1.2 (.jobj (.cons "type" (.jstr "object") .nil))
      (by simp [goodUnions, goodUnionsObj, goodUnionsArr, JObj.lookup])

/-- Counterexample to C1 as stated: in the two-branch union
`{"anyOf": [{"type": "string", "anyOf": [{"type": "integer"}]},
{"type": "null"}]}` the real-type branch carries a literal `anyOf`
key, which the copy loop preserves, so the output still contains an
`anyOf` key. -/
theorem claim_C1_cex :
    cleanSchema (.jobj (.cons "anyOf" (.jarr (.cons
        (.jobj (.cons "type" (.jstr "string")
          (.cons "anyOf" (.jarr (.cons (.jobj (.cons "type" (.jstr "integer") .nil)) .nil)) .nil)))
        (.cons (.jobj (.cons "type" (.jstr "null") .nil)) .nil))) .nil))
      = some (.jobj (.cons "type" (.jstr "string")
          (.cons "anyOf" (.jarr (.cons (.jobj (.cons "type" (.jstr "integer") .nil)) .nil))
          (.cons "nullable" (.jbool true) .nil)))) ∧
    noAnyOf (.jobj (.cons "type" (.jstr "string")
          (.cons "anyOf" (.jarr (.cons (.jobj (.cons "type" (.jstr "integer") .nil)) .nil))
          (.cons "nullable" (.jbool true) .nil)))) = false := by
  constructor
  · simp [cleanSchema, cleanUnion, copyBranch, cleanFields, cleanElems,
      JObj.lookup, JObj.set]
  · decide

/-- C2 (amended).  On `anyOf`-free trees with Python-dict keys,
`clean_schema` returns the tree with exactly the excluded metadata
keys (`title`, `description`, `$ref`, `$defs`) removed at every
level, and applying it twice gives the same result as applying it
once.  (Unrestricted idempotence fails: see the counterexample.) -/
theorem claim_C2 (s : JVal) (hd : distinctAll s = true) (hno : noAnyOf s = true) :
    cleanSchema s = some (eraseMeta s) ∧
    (cleanSchema s).bind cleanSchema = cleanSchema s := by
  have h1 := cleanSchema_erase s hno hd
  refine ⟨h1, ?_⟩
  rw [h1, Option.some_bind,
    cleanSchema_erase (eraseMeta s) (noAnyOf_eraseMeta s hno)
      (distinctAll_eraseMeta s hd), eraseMeta_idem]

/-- Witness for C2 at
`{"title": "T", "type": "object", "properties": {"$defs": {}, "n": {"type": "integer"}}}`. -/
theorem claim_C2_witness :
    distinctAll (.jobj (.cons "title" (.jstr "T") (.cons "type" (.jstr "object")
      (.cons "properties" (.jobj (.cons "$defs" (.jobj .nil)
        (.cons "n" (.jobj (.cons "type" (.jstr "integer") .nil)) .nil))) .nil)))) = true ∧
    noAnyOf (.jobj (.cons "title" (.jstr "T") (.cons "type" (.jstr "object")
      (.cons "properties" (.jobj (.cons "$defs" (.jobj .nil)
        (.cons "n" (.jobj (.cons "type" (.jstr "integer") .nil)) .nil))) .nil)))) = true ∧
    cleanSchema (.jobj (.cons "title" (.jstr "T") (.cons "type" (.jstr "object")
      (.cons "properties" (.jobj (.cons "$defs" (.jobj .nil)
        (.cons "n" (.jobj (.cons "type" (.jstr "integer") .nil)) .nil))) .nil))))
      = some (.jobj (.cons "type" (.jstr "object")
          (.cons "properties" (.jobj
            (.cons "n" (.jobj (.cons "type" (.jstr "integer") .nil)) .nil)) .nil))) ∧
    (cleanSchema (.jobj (.cons "title" (.jstr "T") (.cons "type" (.jstr "object")
      (.cons "properties" (.jobj (.cons "$defs" (.jobj .nil)
        (.cons "n" (.jobj (.cons "type" (.jstr "integer") .nil)) .nil))) .nil))))).bind cleanSchema
      = cleanSchema (.jobj (.cons "title" (.jstr "T") (.cons "type" (.jstr "object")
      (.cons "properties" (.jobj (.cons "$defs" (.jobj .nil)
        (.cons "n" (.jobj (.cons "type" (.jstr "integer") .nil)) .nil))) .nil)))) := by
  refine ⟨by decide, by decide, ?_, ?_⟩
  · rw [(claim_C2 _ (by decide) (by decide)).1]
    rw [show eraseMeta (.jobj (.cons "title" (.jstr "T") (.cons "type" (.jstr "object")
      (.cons "properties" (.jobj (.cons "$defs" (.jobj .nil)
        (.cons "n" (.jobj (.cons "type" (.jstr "integer") .nil)) .nil))) .nil))))
      = .jobj (.cons "type" (.jstr "object")
          (.cons "properties" (.jobj
            (.cons "n" (.jobj (.cons "type" (.jstr "integer") .nil)) .nil)) .nil)) from by decide]
  · exact (claim_C2 _ (by decide) (by decide)).2

/-- Counterexample to C2 as stated: `clean_schema` is not idempotent
on `{"anyOf": [{"anyOf": [{"type": "null"}]}]}` — the first pass
copies the inner `anyOf` key verbatim, the second collapses it. -/
theorem claim_C2_cex :
    (cleanSchema (.jobj (.cons "anyOf" (.jarr (.cons
        (.jobj (.cons "anyOf" (.jarr (.cons
          (.jobj (.cons "type" (.jstr "null") .nil)) .nil)) .nil)) .nil)) .nil))).bind cleanSchema
    ≠ cleanSchema (.jobj (.cons "anyOf" (.jarr (.cons
        (.jobj (.cons "anyOf" (.jarr (.cons
          (.jobj (.cons "type" (.jstr "null") .nil)) .nil)) .nil)) .nil)) .nil)) := by
  have h1 : cleanSchema (.jobj (.cons "anyOf" (.jarr (.cons
        (.jobj (.cons "anyOf" (.jarr (.cons
          (.jobj (.cons "type" (.jstr "null") .nil)) .nil)) .nil)) .nil)) .nil))
      = some (.jobj (.cons "anyOf" (.jarr (.cons
          (.jobj (.cons "type" (.jstr "null") .nil)) .nil)) .nil)) := by
    simp [cleanSchema, cleanUnion, copyBranch, cleanFields, cleanElems,
      JObj.lookup, JObj.set]
  have h2 : cleanSchema (.jobj (.cons "anyOf" (.jarr (.cons
          (.jobj (.cons "type" (.jstr "null") .nil)) .nil)) .nil))
      = some (.jobj (.cons "nullable" (.jbool true) .nil)) := by
    simp [cleanSchema, cleanUnion, copyBranch, cleanFields, cleanElems,
      JObj.lookup, JObj.set]
  rw [h1, Option.some_bind, h2]
  intro hc
  injection hc with hc1
  injection hc1 with hc2
  injection hc2 with hc3 hc4 hc5
  exact absurd hc3 (by decide)

/-- C3: on the failing input
`{"anyOf": [{"type": "string"}, {"type": "integer"}]}` the `anyOf`
loop overwrites `cleaned["type"]` with each later non-null branch, so
the LAST non-null branch wins — contradicting the "first non-null
branch wins" policy stated by the spec and by the source's own
comment ("Take the first non-null type definition"). -/
theorem claim_C3 :
    cleanSchema (.jobj (.cons "anyOf" (.jarr
        (.cons (.jobj (.cons "type" (.jstr "string") .nil))
        (.cons (.jobj (.cons "type" (.jstr "integer") .nil)) .nil))) .nil))
      = some (.jobj (.cons "type" (.jstr "integer") .nil)) ∧
    (some (.jobj (.cons "type" (.jstr "integer") .nil)) : Option JVal)
      ≠ some (.jobj (.cons "type" (.jstr "string") .nil)) := by
  constructor
  · simp [cleanSchema, cleanUnion, copyBranch, cleanFields, cleanElems,
      JObj.lookup, JObj.set]
  · decide

/-- C4: `clean_schema` is deterministic — its output is a function of
the input tree alone.  (Purity holds by construction: the embedding
is a pure recursive function, as is the source, which performs no
I/O and builds a fresh dict/list at every level.) -/
theorem claim_C4 (s t : JVal) (h : s = t) : cleanSchema s = cleanSchema t := by
  rw [h]

/-- Witness for C4 at the schema `{"type": "string"}`. -/
theorem claim_C4_witness :
    cleanSchema (.jobj (.cons "type" (.jstr "string") .nil))
      = cleanSchema (.jobj (.cons "type" (.jstr "string") .nil)) :=
  claim_C4 (.jobj (.cons "type" (.jstr "string") .nil))
    (.jobj (.cons "type" (.jstr "string") .nil)) rfl

/-- C5: `clean_schema` is the identity on scalar leaves — every
non-dict, non-list input is returned unchanged (src/main.py lines
84-85). -/
theorem claim_C5 (b : Bool) (n : Int) (s : String) :
    cleanSchema .jnull = some .jnull ∧
    cleanSchema (.jbool b) = some (.jbool b) ∧
    cleanSchema (.jnum n) = some (.jnum n) ∧
    cleanSchema (.jstr s) = some (.jstr s) := by
  refine ⟨?_, ?_, ?_, ?_⟩ <;> simp [cleanSchema]

theorem goodUnionsObj_lookup : ∀ (o : JObj) (k : String) (v : JVal),
    goodUnionsObj o = true → o.lookup k = some v → goodUnions v = true
  | .nil, k, v, _, hl => by simp [JObj.lookup] at hl
  | .cons k' v' rest, k, v, hg, hl => by
      rw [goodUnionsObj] at hg
      simp only [Bool.and_eq_true] at hg
      rw [JObj.lookup] at hl
      by_cases hk : k' = k
      · rw [if_pos hk] at hl
        injection hl with he
        subst he
        exact hg.1
      · rw [if_neg hk] at hl
        exact goodUnionsObj_lookup rest k v hg.2 hl

theorem cleanFields_hasKey_excluded : ∀ (fields acc o : JObj) (k : String),
    (k = "title" ∨ k = "description" ∨ k = "$ref" ∨ k = "$defs") →
    acc.hasKey k = false →
    cleanFields fields acc = some o →
    o.hasKey k = false
  | .nil, acc, o, k, _, hacc, hcf => by
      rw [cleanFields] at hcf
      injection hcf with hcf
      subst hcf
      exact hacc
  | .cons k' v rest, acc, o, k, hk, hacc, hcf => by
      rw [cleanFields] at hcf
      by_cases hskip : k' = "title" ∨ k' = "description" ∨ k' = "$ref" ∨ k' = "$defs"
      · rw [if_pos hskip] at hcf
        exact cleanFields_hasKey_excluded rest acc o k hk hacc hcf
      · rw [if_neg hskip] at hcf
        cases hcv : cleanSchema v with
        | none => rw [hcv] at hcf; cases hcf
        | some cv =>
            rw [hcv] at hcf
            have hne : k ≠ k' := by
              intro he
              subst he
              exact hskip hk
            exact cleanFields_hasKey_excluded rest (acc.set k' cv) o k hk
              (by rw [JObj.hasKey_set_ne acc k' k cv hne]; exact hacc) hcf

/-- C10: the metadata filtering of `clean_schema` is asymmetric.
Part 1: inside a collapsed union, only `title`/`description` are
dropped, so a `$ref` or `$defs` key of the real-type branch survives
into the output node.  Part 2: on the non-union copy path, all four
of `title`, `description`, `$ref`, `$defs` are dropped. -/
theorem claim_C10 :
    (∀ (fields bf nf : JObj) (ty k : String) (v : JVal),
      fields.lookup "anyOf" =
        some (.jarr (.cons (.jobj bf) (.cons (.jobj nf) .nil))) →
      bf.lookup "type" = some (.jstr ty) → ty ≠ "null" →
      nf.lookup "type" = some (.jstr "null") →
      bf.distinctKeys = true →
      bf.hasKey "anyOf" = false → goodUnionsObj bf = true →
      (k = "$ref" ∨ k = "$defs") → bf.lookup k = some v →
      ∃ o, cleanSchema (.jobj fields) = some (.jobj o) ∧ o.hasKey k = true) ∧
    (∀ (fields o : JObj),
      fields.hasKey "anyOf" = false →
      cleanSchema (.jobj fields) = some (.jobj o) →
      o.hasKey "title" = false ∧ o.hasKey "description" = false ∧
      o.hasKey "$ref" = false ∧ o.hasKey "$defs" = false) := by
  constructor
  · intro fields bf nf ty k v hanyof hty htynull hnull hdk hbfno hbfgood hrefdefs hlkv
    obtain ⟨acc1, hcb, _⟩ :=
      copyBranch_good bf .nil hbfno hbfgood (by rw [noAnyOfObj])
    have hnotnull : ¬ (bf.lookup "type" = some (.jstr "null")) := by
      rw [hty]
      intro hc
      injection hc with hc2
      injection hc2 with hc3
      exact htynull hc3
    have hcu : cleanUnion (.cons (.jobj bf) (.cons (.jobj nf) .nil)) .nil
        = some (acc1.set "nullable" (.jbool true)) := by
      rw [cleanUnion_cons_real bf _ .nil acc1 hnotnull hcb,
        cleanUnion_cons_null nf .nil acc1 hnull, cleanUnion]
    refine ⟨acc1.set "nullable" (.jbool true), ?_, ?_⟩
    · rw [cleanSchema_jobj_union fields _ hanyof, hcu]
      rfl
    · have hkn : k ≠ "nullable" := by
        rcases hrefdefs with h | h <;> (subst h; decide)
      rw [JObj.hasKey, JObj.lookup_set_ne acc1 "nullable" k (.jbool true) hkn]
      rw [copyBranch_lookup bf .nil acc1 k hdk hcb]
      have hcond : (k ≠ "title" ∧ k ≠ "description") ∧ bf.hasKey k = true := by
        refine ⟨⟨?_, ?_⟩, ?_⟩
        · rcases hrefdefs with h | h <;> (subst h; decide)
        · rcases hrefdefs with h | h <;> (subst h; decide)
        · rw [JObj.hasKey, hlkv]
          rfl
      rw [if_pos hcond, hlkv]
      obtain ⟨cv, hcv, _⟩ :=
        cleanSchema_good v (goodUnionsObj_lookup bf k v hbfgood hlkv)
      show (cleanSchema v).isSome = true
      rw [hcv]
      rfl
  · intro fields o hno hcs
    have hlkn : fields.lookup "anyOf" = none := JObj.hasKey_false_lookup hno
    rw [cleanSchema_jobj_plain fields hlkn] at hcs
    cases hcf : cleanFields fields .nil with
    | none => rw [hcf] at hcs; cases hcs
    | some o' =>
        rw [hcf] at hcs
        injection hcs with hcs
        injection hcs with hcs
        subst hcs
        have hnil : ∀ kk : String, JObj.nil.hasKey kk = false := by
          intro kk
          simp [JObj.hasKey, JObj.lookup]
        exact ⟨cleanFields_hasKey_excluded fields .nil o' "title" (by simp) (hnil _) hcf,
          cleanFields_hasKey_excluded fields .nil o' "description" (by simp) (hnil _) hcf,
          cleanFields_hasKey_excluded fields .nil o' "$ref" (by simp) (hnil _) hcf,
          cleanFields_hasKey_excluded fields .nil o' "$defs" (by simp) (hnil _) hcf⟩

/-- Witness for C10: the `$ref` key of the real branch of
`{"anyOf": [{"type": "string", "$ref": "#/d"}, {"type": "null"}]}`
survives, while `{"$ref": "#/d", "type": "object"}` loses it on the
non-union path. -/
theorem claim_C10_witness :
    (∃ o, cleanSchema (.jobj (.cons "anyOf" (.jarr (.cons
        (.jobj (.cons "type" (.jstr "string") (.cons "$ref" (.jstr "#/d") .nil)))
        (.cons (.jobj (.cons "type" (.jstr "null") .nil)) .nil))) .nil))
      = some (.jobj o) ∧ o.hasKey "$ref" = true) ∧
    ((JObj.cons "type" (.jstr "object") .nil).hasKey "$ref" = false) := by
  constructor
  · exact claim_C10.1
      (.cons "anyOf" (.jarr (.cons
        (.jobj (.cons "type" (.jstr "string") (.cons "$ref" (.jstr "#/d") .nil)))
        (.cons (.jobj (.cons "type" (.jstr "null") .nil)) .nil))) .nil)
      (.cons "type" (.jstr "string") (.cons "$ref" (.jstr "#/d") .nil))
      (.cons "type" (.jstr "null") .nil) "string" "$ref" (.jstr "#/d")
      (by simp [JObj.lookup]) (by simp [JObj.lookup]) (by decide)
      (by simp [JObj.lookup]) (by decide) (by decide)
      (by simp [goodUnionsObj, goodUnions, goodUnionsArr, JObj.lookup])
      (Or.inl rfl) (by simp [JObj.lookup])
  · obtain ⟨-, -, h, -⟩ := claim_C10.2 (.cons "$ref" (.jstr "#/d")
      (.cons "type" (.jstr "object") .nil)) (.cons "type" (.jstr "object") .nil)
      (by decide)
      (by simp [cleanSchema, cleanUnion, copyBranch, cleanFields, cleanElems,
        JObj.lookup, JObj.set])
    exact h

theorem concatPages_append : ∀ (a b : List (Option String)),
    concatPages (a ++ b) = concatPages a ++ concatPages b
  | [], b => by
      rw [List.nil_append, concatPages, String.empty_append]
  | p :: rest, b => by
      rw [List.cons_append, concatPages, concatPages,
        concatPages_append rest b, String.append_assoc]

/-- C6 (amended).  The pipeline extractor (src/main.py `load_file`)
never raises: an unopenable file yields `""`, a readable file yields
the page texts concatenated in order with `""` substituted for a page
that extracts nothing.  The `load_file` of src/counter.py behaves the
same on a readable file but propagates the open failure. -/
theorem claim_C6 :
    (∀ (fs : FileSys) (path : String),
      fs path = none → main_load_file fs path = "") ∧
    (∀ (fs : FileSys) (path : String) (pre post : List (Option String)),
      fs path = some (pre ++ none :: post) →
      main_load_file fs path = concatPages pre ++ "" ++ concatPages post) ∧
    (∀ (fs : FileSys) (path : String) (pages : List (Option String)),
      fs path = some pages →
      counter_load_file fs path = .ok (main_load_file fs path)) := by
  refine ⟨?_, ?_, ?_⟩
  · intro fs path h
    rw [main_load_file, h]
  · intro fs path pre post h
    rw [main_load_file, h]
    show concatPages (pre ++ none :: post) = _
    rw [concatPages_append, concatPages]
    show concatPages pre ++ ("" ++ concatPages post) = _
    rw [← String.append_assoc]
  · intro fs path pages h
    rw [counter_load_file, h, main_load_file, h]

/-- Witness for C6: a missing file yields `""`; a two-page file whose
first page extracts nothing yields the second page's text; the
src/counter.py variant returns the same text on the readable file. -/
theorem claim_C6_witness :
    main_load_file (fun _ => none) "meta_10k.pdf" = "" ∧
    main_load_file (fun _ => some [none, some "10-K"]) "meta_10k.pdf"
      = concatPages [] ++ "" ++ concatPages [some "10-K"] ∧
    counter_load_file (fun _ => some [none, some "10-K"]) "meta_10k.pdf"
      = .ok (main_load_file (fun _ => some [none, some "10-K"]) "meta_10k.pdf") := by
  refine ⟨?_, ?_, ?_⟩
  · exact claim_C6.1 (fun _ => none) "meta_10k.pdf" rfl
  · exact claim_C6.2.1 (fun _ => some [none, some "10-K"]) "meta_10k.pdf"
      [] [some "10-K"] rfl
  · exact claim_C6.2.2 (fun _ => some [none, some "10-K"]) "meta_10k.pdf"
      [none, some "10-K"] rfl

/-- Counterexample to C6 as stated: `load_file` of src/counter.py
(cited by the claim) has no exception handler, so on a missing file
it raises `FileNotFoundError` instead of returning `""`. -/
theorem claim_C6_cex :
    counter_load_file (fun _ => none) "meta_10k.pdf"
      = .error "FileNotFoundError" ∧
    (Except.error "FileNotFoundError" : Except String String) ≠ .ok "" := by
  exact ⟨rfl, fun h => Except.noConfusion h⟩

/-- C7: whenever extraction yields empty text, the `__main__` block
exits at the `if not text` check (the spec's `InputUnavailable`
condition) and never reaches `genai.configure` or the generation
call — regardless of the environment. -/
theorem claim_C7 (fs : FileSys) (env : String → Option String)
    (h : main_load_file fs "meta_10k.pdf" = "") :
    runMain fs env = .exitEmptyInput ∧
    ∀ key text, runMain fs env ≠ .reachedNetwork key text := by
  have h1 : runMain fs env = .exitEmptyInput := by
    rw [runMain]
    show (if main_load_file fs "meta_10k.pdf" = "" then _ else _) = _
    rw [if_pos h]
  exact ⟨h1, fun key text hc => by rw [h1] at hc; cases hc⟩

/-- Witness for C7: an unreadable file with the API key present
still halts before the network. -/
theorem claim_C7_witness :
    runMain (fun _ => none) (fun _ => some "SECRET") = .exitEmptyInput ∧
    ∀ key text, runMain (fun _ => none) (fun _ => some "SECRET")
      ≠ .reachedNetwork key text :=
  claim_C7 (fun _ => none) (fun _ => some "SECRET") rfl

/-- Python `str.replace` with a single-character pattern and
replacement is the characterwise substitution. -/
theorem pyReplace_single : ∀ (a r : Char) (l : List Char),
    pyReplace a [] [r] l = l.map (fun c => if c = a then r else c)
  | a, r, [] => by rw [pyReplace, List.map_nil]
  | a, r, c :: rest => by
      rw [pyReplace, List.map_cons]
      by_cases hc : c = a
      · rw [if_pos ⟨hc, by cases rest <;> rfl⟩, if_pos hc]
        simp only [List.length_nil, List.drop_zero]
        rw [pyReplace_single a r rest]
        rfl
      · rw [if_neg (fun hcon => hc hcon.1), if_neg hc,
          pyReplace_single a r rest]

theorem sanitizeCompany_spec (name : List Char) :
    sanitizeCompany name = specSanitize name := by
  rw [sanitizeCompany, pyReplace_single, pyReplace_single, specSanitize,
    List.map_map]
  have hfun : ((fun c => if c = '/' then '_' else c) ∘
      (fun c => if c = ' ' then '_' else c))
      = (fun c => if c = ' ' ∨ c = '/' then '_' else c) := by
    funext c
    by_cases h1 : c = ' '
    · subst h1
      decide
    · by_cases h2 : c = '/'
      · subst h2
        decide
      · simp [h1, h2]
  rw [hfun]

/-- C8: the output filename is `annual_report_` + the company name
with every space and every `/` replaced by `_` and all other
characters unchanged + `_` + the fiscal year + `.pdf`; in particular
company `"Meta Platforms, Inc."` with year 2024 yields
`annual_report_Meta_Platforms,_Inc._2024.pdf`. -/
theorem claim_C8 (name : List Char) (year : Nat) :
    annualReportFilename name year
      = "annual_report_".toList ++ specSanitize name
        ++ "_".toList ++ (toString year).toList ++ ".pdf".toList ∧
    annualReportFilename "Meta Platforms, Inc.".toList 2024
      = "annual_report_Meta_Platforms,_Inc._2024.pdf".toList := by
  constructor
  · rw [annualReportFilename, sanitizeCompany_spec]
  · rw [annualReportFilename, sanitizeCompany_spec]
    decide

theorem firstMissing_eq_some : ∀ (l : List String) (fields : JObj) (f : String),
    f ∈ l → fields.hasKey f = false →
    (∀ g, g ∈ l → g ≠ f → fields.hasKey g = true) →
    firstMissing fields l = some f
  | [], _, f, hf, _, _ => absurd hf (List.not_mem_nil f)
  | g :: rest, fields, f, hf, hmiss, hothers => by
      rw [firstMissing]
      by_cases hgf : g = f
      · subst hgf
        rw [if_neg (fun hc => by rw [hmiss] at hc; cases hc)]
      · rw [if_pos (hothers g (List.mem_cons_self g rest) hgf)]
        have hf' : f ∈ rest := by
          rcases List.mem_cons.mp hf with h | h
          · exact absurd h.symm hgf
          · exact h
        exact firstMissing_eq_some rest fields f hf' hmiss
          (fun g' hg' hne => hothers g' (List.mem_cons_of_mem g hg') hne)

theorem firstMissing_some_missing : ∀ (l : List String) (fields : JObj) (g : String),
    firstMissing fields l = some g → g ∈ l ∧ fields.hasKey g = false
  | [], _, g, h => by rw [firstMissing] at h; cases h
  | f :: rest, fields, g, h => by
      rw [firstMissing] at h
      by_cases hk : fields.hasKey f = true
      · rw [if_pos hk] at h
        obtain ⟨h1, h2⟩ := firstMissing_some_missing rest fields g h
        exact ⟨List.mem_cons_of_mem f h1, h2⟩
      · rw [if_neg hk] at h
        have hfg : f = g := by injection h
        subst hfg
        refine ⟨List.mem_cons_self f rest, ?_⟩
        cases hb : fields.hasKey f with
        | false => rfl
        | true => exact absurd hb hk

theorem firstMissing_none_all : ∀ (l : List String) (fields : JObj),
    firstMissing fields l = none → ∀ f, f ∈ l → fields.hasKey f = true
  | [], _, _, f, hf => absurd hf (List.not_mem_nil f)
  | g :: rest, fields, h, f, hf => by
      rw [firstMissing] at h
      by_cases hk : fields.hasKey g = true
      · rw [if_pos hk] at h
        rcases List.mem_cons.mp hf with he | hm
        · subst he
          exact hk
        · exact firstMissing_none_all rest fields h f hm
      · rw [if_neg hk] at h
        cases h

/-- C9 (spec-modelled, see `validateReport`): a raw string that is
not valid JSON fails with `MalformedPayload`; a parsed object lacking
a required field fails with `SchemaViolation` naming that field (the
first missing one when several are absent), and no record is
produced. -/
theorem claim_C9 :
    validateReport none = .error .malformedPayload ∧
    (∀ (fields : JObj) (f : String),
      f ∈ requiredFields → fields.hasKey f = false →
      (∀ g, g ∈ requiredFields → g ≠ f → fields.hasKey g = true) →
      validateReport (some (.jobj fields)) = .error (.schemaViolation f)) ∧
    (∀ (fields : JObj) (f : String),
      f ∈ requiredFields → fields.hasKey f = false →
      ∃ g, g ∈ requiredFields ∧ fields.hasKey g = false ∧
        validateReport (some (.jobj fields)) = .error (.schemaViolation g)) := by
  refine ⟨rfl, ?_, ?_⟩
  · intro fields f hf hmiss hothers
    rw [validateReport]
    rw [firstMissing_eq_some requiredFields fields f hf hmiss hothers]
  · intro fields f hf hmiss
    cases hfm : firstMissing fields requiredFields with
    | none =>
        rw [firstMissing_none_all requiredFields fields hfm f hf] at hmiss
        cases hmiss
    | some g =>
        obtain ⟨hg1, hg2⟩ := firstMissing_some_missing requiredFields fields g hfm
        refine ⟨g, hg1, hg2, ?_⟩
        rw [validateReport, hfm]

/-- Witness for C9: `{"cik": "0001326801", "fiscal_year_end": "d",
"filing_date": "d"}` lacks exactly `company_name` and is rejected
with `SchemaViolation "company_name"`; invalid JSON is rejected with
`MalformedPayload`. -/
theorem claim_C9_witness :
    validateReport none = .error .malformedPayload ∧
    validateReport (some (.jobj (.cons "cik" (.jstr "0001326801")
        (.cons "fiscal_year_end" (.jstr "2024-12-31")
        (.cons "filing_date" (.jstr "2025-01-29") .nil)))))
      = .error (.schemaViolation "company_name") := by
  constructor
  · exact claim_C9.1
  · exact claim_C9.2.1 (.cons "cik" (.jstr "0001326801")
        (.cons "fiscal_year_end" (.jstr "2024-12-31")
        (.cons "filing_date" (.jstr "2025-01-29") .nil))) "company_name"
      (by decide) (by decide)
      (by
        intro g hg hne
        simp only [requiredFields, List.mem_cons, List.not_mem_nil, or_false] at hg
        rcases hg with h | h | h | h <;> subst h <;> first | (exact absurd rfl hne) | decide)
